import Mathlib

set_option autoImplicit false

namespace WaterSim

/-!
Shallow embedding of the SPH compute core of the WaterSimulation repository
(SPHComputeSystem.cpp together with the compute shaders sph_step1.cs,
sph_step2.cs, sph_step3.cs, sph_step5.cs, sph_step6.cs).

Scalars are modelled as exact rationals; GLSL vec3 values become triples of
rationals.  GPU 32-bit atomic words are modelled as natural numbers reduced
modulo 2 ^ 32 at each write, exactly where the source can wrap.  A parallel
dispatch whose only shared state is touched through atomic fetch-and-add is
modelled by folding the per-task body over an arbitrary serialization list of
the tasks; every interleaving of such a dispatch coincides with one of these
serializations.  Euclidean lengths enter the shaders only through their
square, through even powers, or as an extra scalar argument `dist` whose
defining properties (nonnegative, square equal to the squared norm) are
hypotheses of the theorems.
-/

/-- Component triple standing for a GLSL vec3 of exact scalars. -/
abbrev V3 : Type := ℚ × ℚ × ℚ

/-- Scalar times vector, componentwise. -/
def vscale (a : ℚ) (v : V3) : V3 := (a * v.1, a * v.2.1, a * v.2.2)

/-- Squared Euclidean norm of a vector. -/
def normSq (v : V3) : ℚ := v.1 ^ 2 + v.2.1 ^ 2 + v.2.2 ^ 2

/-- MASS = 0.02 (SPHConstants::MASS, also sph_step5.cs and sph_step6.cs). -/
def sphMass : ℚ := 1 / 50

/-- KERNEL_RADIUS = 0.1828, four times the particle radius 0.0457. -/
def kernelRadius : ℚ := 457 / 2500

/-- The literal 3.14159265 used for pi by sph_step5.cs and sph_step6.cs. -/
def piApprox : ℚ := 314159265 / 100000000

/-- POLY6_KERNEL_WEIGHT_CONST = 315 / (64 * 3.14159265 * h ^ 9), sph_step5.cs. -/
def poly6Const : ℚ := 315 / (64 * piApprox * kernelRadius ^ 9)

/-- STIFFNESS_K = 250.0 from sph_step5.cs. -/
def stiffnessK : ℚ := 250

/-- REST_DENSITY = 998.27 from sph_step5.cs. -/
def restDensity : ℚ := 99827 / 100

/-- REST_PRESSURE = 0.0 from sph_step5.cs. -/
def restPressure : ℚ := 0

/-- SPIKY_KERNEL_WEIGHT_CONST = 15 / (3.14159265 * h ^ 6) from sph_step6.cs. -/
def spikyConst : ℚ := 15 / (piApprox * kernelRadius ^ 6)

/-- VIS_KERNEL_WEIGHT_CONST = 45 / (3.14159265 * h ^ 6) from sph_step6.cs. -/
def visConst : ℚ := 45 / (piApprox * kernelRadius ^ 6)

/-- SPHConstants::DT = 0.0012, the fixed substep length. -/
def simDT : ℚ := 3 / 2500

/-- wallDamping = 0.5 from sph_step1.cs. -/
def wallDamping : ℚ := 1 / 2

/-- SAFE_BOUNDS = 0.5 from sph_step1.cs. -/
def safeBounds : ℚ := 1 / 2

/-- Decode of the packed cell word: sph_step3.cs, sph_step5.cs and
sph_step6.cs read the offset field as `voxelValue >> 8`. -/
def offsetOf (w : ℕ) : ℕ := w / 256

/-- Decode of the count field: `voxelValue & 0xFF`. -/
def countOf (w : ℕ) : ℕ := w % 256

/-- Grid state after pass 1 (sph_step1.cs): starting from a cleared grid,
every particle atomically increments the whole 32-bit word of its cell, so a
cell ends holding the number of particles assigned to it.  The increments
commute, hence the result does not depend on the serialization.  A particle
is represented by its computed cell index. -/
def countGrid {ι : Type} [DecidableEq ι] (ps : List ι) : ι → ℕ := fun c => ps.count c

/-- Serialization of pass 2 (sph_step2.cs).  Each cell in turn reads its
pass-1 count from the grid, reserves a base offset by fetch-and-add on the
global particle counter, and stores `offset << 8` back into its word.  The
two-level scheme of the shader (a shared workgroup counter followed by one
global fetch-and-add per workgroup) flattens to a single serialization at
cell granularity: workgroups in reservation order, cells inside a workgroup
in local fetch-and-add order.  `g` is the grid after pass 1, `out` the grid
being written, `acc` the global counter. -/
def pass2go {ι : Type} [DecidableEq ι] (g : ι → ℕ) : List ι → (ι → ℕ) → ℕ → (ι → ℕ)
  | [], out, _ => out
  | c :: rest, out, acc =>
      pass2go g rest (Function.update out c ((acc * 256) % 2 ^ 32)) (acc + g c)

/-- Grid after pass 2 along the cell serialization `order`; the global
counter starts cleared because the host zeroes counterBuffer_ before the
dispatch. -/
def pass2 {ι : Type} [DecidableEq ι] (g : ι → ℕ) (order : List ι) : ι → ℕ :=
  pass2go g order g 0

/-- Serialization of pass 3 (sph_step3.cs) as it acts on the grid: every
particle performs `imageAtomicAdd(grid, cell, 1)` on the 32-bit word of its
cell. -/
def pass3 {ι : Type} [DecidableEq ι] : List ι → (ι → ℕ) → (ι → ℕ)
  | [], g => g
  | p :: rest, g => pass3 rest (Function.update g p ((g p + 1) % 2 ^ 32))

/-- Cell words after passes 1, 2 and 3 of one substep: the particles `ps` are
counted, the cells receive offsets along the serialization `order`, and the
scatter pass increments each particle cell once along the serialization
`scatter`. -/
def gridAfterPass3 {ι : Type} [DecidableEq ι] (ps order scatter : List ι) : ι → ℕ :=
  pass3 scatter (pass2 (countGrid ps) order)

/-- Base offset a cell receives along a pass-2 serialization: the sum of the
pass-1 counts of the cells served before it. -/
def offAssign {ι : Type} [DecidableEq ι] (g : ι → ℕ) : List ι → ι → ℕ
  | [], _ => 0
  | d :: rest, c => if c = d then 0 else g d + offAssign g rest c

/-- The fixed-substep loop of SPHComputeSystem::update: while the accumulator
is at least DT, run one substep sequence and subtract DT.  Returns the final
accumulator together with the number of substeps run. -/
def simLoop (acc : ℚ) : ℚ × ℕ :=
  if h : simDT ≤ acc then
    let r := simLoop (acc - simDT)
    (r.1, r.2 + 1)
  else (acc, 0)
termination_by (⌊acc / simDT⌋).toNat
decreasing_by
  have hd : (0 : ℚ) < simDT := by norm_num [simDT]
  have h1 : (acc - simDT) / simDT = acc / simDT - 1 := by field_simp
  have h2 : (1 : ℚ) ≤ acc / simDT := (one_le_div hd).mpr h
  have h3 : (1 : ℤ) ≤ ⌊acc / simDT⌋ := Int.le_floor.mpr (by exact_mod_cast h2)
  rw [h1, Int.floor_sub_one]
  omega

/-- SPHComputeSystem::update, reduced to the state it reads and writes for
the clock behaviour: with no particles it returns at once, otherwise the
incoming delta is accumulated and the substep loop runs. -/
def sphUpdate (numParticles : ℕ) (acc dt : ℚ) : ℚ × ℕ :=
  if numParticles = 0 then (acc, 0) else simLoop (acc + dt)

/-- Capacity computation of SPHComputeSystem::initialize:
`minParticles = std::max(numParticles, 50000u)` and
`maxParticles_ = ((minParticles + 511) / 512) * 512`, all in uint32
arithmetic, so the sum `minParticles + 511` and the final product reduce
modulo 2 ^ 32. -/
def computeCapacity (n : ℕ) : ℕ := (max n 50000 + 511) % 2 ^ 32 / 512 * 512 % 2 ^ 32

/-- One record of the std430 particle buffer (struct Particle in the SPH
shaders, SPHParticleCompute on the host). -/
structure SPHParticle where
  position : V3
  density : ℚ
  velocity : V3
  pressure : ℚ
deriving DecidableEq, Inhabited

/-- Host-side state read and written by SPHComputeSystem::addParticles. -/
structure SysState where
  numParticles : ℕ
  maxParticles : ℕ
  buffer : ℕ → SPHParticle

/-- A freshly added particle: density seeded with REST_DENSITY, pressure 0. -/
def mkParticle (p v : V3) : SPHParticle := ⟨p, restDensity, v, 0⟩

/-- glNamedBufferSubData: write the records contiguously starting at slot
`base`, leaving every other slot untouched. -/
def writeAt (buf : ℕ → SPHParticle) (base : ℕ) (recs : List SPHParticle) : ℕ → SPHParticle :=
  fun i => if base ≤ i ∧ i < base + recs.length then recs.getD (i - base) default else buf i

/-- SPHComputeSystem::addParticles: mismatched array lengths return with no
change; a request beyond capacity is truncated to the free space (with an
early return when no space is left); the kept prefix is appended after the
existing records and the particle count grows by the number kept. -/
def addParticles (s : SysState) (positions velocities : List V3) : SysState :=
  if positions.length ≠ velocities.length then s
  else if s.maxParticles < s.numParticles + positions.length then
    if s.maxParticles - s.numParticles = 0 then s
    else
      { s with
        numParticles := s.numParticles + (s.maxParticles - s.numParticles)
        buffer := writeAt s.buffer s.numParticles
          (List.zipWith mkParticle (positions.take (s.maxParticles - s.numParticles))
            (velocities.take (s.maxParticles - s.numParticles))) }
  else
    { s with
      numParticles := s.numParticles + positions.length
      buffer := writeAt s.buffer s.numParticles (List.zipWith mkParticle positions velocities) }

/-- Impulse velocity contribution of sph_step1.cs: inside the interaction
radius and farther than 0.001 from the request center, the impulse scaled by
the squared linear falloff and by DT; otherwise nothing.  `dist` stands for
`length(uSpherePosition - position)`. -/
def impulseDelta (impulse : V3) (radius dist dt : ℚ) : V3 :=
  if dist ≤ radius ∧ 1 / 1000 < dist then
    vscale ((1 - dist / radius) ^ 2 * dt) impulse
  else (0, 0, 0)

/-- Velocity update of sph_step1.cs before boundary handling: gravity first,
then the one-shot sphere impulse when the request is active. -/
def step1Velocity (v gravity : V3) (dt : ℚ) (active : Bool) (impulse : V3)
    (radius dist : ℚ) : V3 :=
  let nv := v + vscale dt gravity
  if active then nv + impulseDelta impulse radius dist dt else nv

/-- One axis of the boundary handling of sph_step1.cs: two sequential if
statements damping the velocity and clamping the position at the low and the
high wall. -/
def boundaryAxis (lo hi v p : ℚ) : ℚ × ℚ :=
  let s1 := if p < lo then (v * -wallDamping, lo) else (v, p)
  if hi < s1.2 then (s1.1 * -wallDamping, hi) else s1

/-- Boundary handling with the walls of sph_step1.cs: boundsL = uGridOrigin +
SAFE_BOUNDS and boundsH = uGridOrigin + uGridSize - SAFE_BOUNDS, where the
host passes uGridOrigin = boxMin and uGridSize = boxMax - boxMin. -/
def step1Wall (origin size v p : ℚ) : ℚ × ℚ :=
  boundaryAxis (origin + safeBounds) (origin + size - safeBounds) v p

/-- Poly6 smoothing weight of sph_step5.cs as a function of the squared
distance: `pow(h * h - rLen * rLen, 3) * POLY6_KERNEL_WEIGHT_CONST`. -/
def poly6Weight (rsq : ℚ) : ℚ := (kernelRadius ^ 2 - rsq) ^ 3 * poly6Const

/-- Density accumulation of sph_step5.cs over the candidate positions the
27-cell stencil walk visits.  The guard `rLen >= KERNEL_RADIUS` is the
squared comparison `h ^ 2 <= rsq`, and the weight uses the distance only
through its square. -/
def densityAt (pos : V3) (candidates : List V3) : ℚ :=
  (candidates.map (fun q =>
    let rsq := normSq (pos - q)
    if kernelRadius ^ 2 ≤ rsq then 0 else sphMass * poly6Weight rsq)).sum

/-- Equation of state of sph_step5.cs: REST_PRESSURE + STIFFNESS_K *
(density - REST_DENSITY), with no lower clamp. -/
def pressureOf (density : ℚ) : ℚ := restPressure + stiffnessK * (density - restDensity)

/-- Per-neighbor contribution of sph_step6.cs: the pair (pressure force,
viscosity force) that the neighbor adds to the accumulators of `self`.
`dist` stands for `rLen = length(r)`; the division `r / rLen` of the source
appears as the `1 / dist` factor. -/
def forceContrib (selfId otherId : ℕ) (self other : SPHParticle) (dist : ℚ) : V3 × V3 :=
  if selfId = otherId then ((0, 0, 0), (0, 0, 0))
  else
    let r := self.position - other.position
    if kernelRadius ≤ dist ∨ dist ≤ 1 / 10000 then ((0, 0, 0), (0, 0, 0))
    else
      let weightPressure := vscale (spikyConst * (kernelRadius - dist) ^ 2 * (1 / dist)) r
      (vscale (-(sphMass * (self.pressure + other.pressure) / (2 * other.density))) weightPressure,
       vscale (sphMass * (visConst * (kernelRadius - dist)) / other.density)
         (other.velocity - self.velocity))

/-! Helper lemmas about the buffer write primitive. -/

theorem writeAt_below (buf : ℕ → SPHParticle) (base : ℕ) (recs : List SPHParticle)
    (j : ℕ) (hj : j < base) : writeAt buf base recs j = buf j := by
  unfold writeAt
  rw [if_neg (by omega)]

theorem writeAt_inside (buf : ℕ → SPHParticle) (base : ℕ) (recs : List SPHParticle)
    (i : ℕ) (hi : i < recs.length) :
    writeAt buf base recs (base + i) = recs.getD i default := by
  unfold writeAt
  rw [if_pos (by omega)]
  congr 1
  omega

theorem zipWith_take_getD (f : V3 → V3 → SPHParticle) (as bs : List V3) (k i : ℕ)
    (hka : k ≤ as.length) (hkb : k ≤ bs.length) (hi : i < k) :
    (List.zipWith f (as.take k) (bs.take k)).getD i default = f (as.getD i 0) (bs.getD i 0) := by
  have hlen : (List.zipWith f (as.take k) (bs.take k)).length = k := by
    simp [List.length_zipWith, List.length_take]
    omega
  have h1 : i < (List.zipWith f (as.take k) (bs.take k)).length := by omega
  have ha : i < as.length := by omega
  have hb : i < bs.length := by omega
  rw [List.getD_eq_getElem _ _ h1, List.getElem_zipWith,
    List.getD_eq_getElem as 0 ha, List.getD_eq_getElem bs 0 hb]
  congr 1
  · exact List.getElem_take as
  · exact List.getElem_take bs

/-- C3 counterexample: for the requested capacity 1000, initialize sets the
capacity to 50176, not to 512 * ceil(1000 / 512) = 1024: the source first
raises the request to at least 50000. -/
theorem computeCapacity_small_counterexample :
    computeCapacity 1000 = 50176 ∧ 512 * ((1000 + 511) / 512) = 1024 ∧
      (50176 : ℕ) ≠ 1024 := by
  refine ⟨?_, by norm_num, by norm_num⟩
  norm_num [computeCapacity]

/-- C3 (amended): for every request n small enough that the uint32 sum
max(n, 50000) + 511 does not wrap, initialize sets the capacity to
max(n, 50000) rounded up to the nearest multiple of 512: the result is a
multiple of 512, at least max(n, 50000), and less than max(n, 50000) + 512.
For the remaining valid uint32 requests the sum wraps modulo 2 ^ 32 and the
capacity collapses (see `computeCapacity_wrap_top`). -/
theorem computeCapacity_rounds_up (n : ℕ) (hn : n ≤ 2 ^ 32 - 512) :
    computeCapacity n % 512 = 0 ∧
    max n 50000 ≤ computeCapacity n ∧
    computeCapacity n < max n 50000 + 512 := by
  unfold computeCapacity
  omega

theorem computeCapacity_rounds_up_witness :
    (60000 : ℕ) ≤ 2 ^ 32 - 512 ∧
    (computeCapacity 60000 % 512 = 0 ∧
      max 60000 50000 ≤ computeCapacity 60000 ∧
      computeCapacity 60000 < max 60000 50000 + 512) :=
  ⟨by norm_num, computeCapacity_rounds_up 60000 (by norm_num)⟩

/-- At the largest uint32 request the sum max(n, 50000) + 511 wraps to 510
and the computed capacity is 0. -/
theorem computeCapacity_wrap_top : computeCapacity (2 ^ 32 - 1) = 0 := by
  norm_num [computeCapacity]

/-- C10: addParticles with arrays of different lengths changes nothing: the
state, particle count and buffer included, is returned unmodified. -/
theorem addParticles_mismatch (s : SysState) (positions velocities : List V3)
    (h : positions.length ≠ velocities.length) :
    addParticles s positions velocities = s := by
  unfold addParticles
  rw [if_pos h]

theorem addParticles_mismatch_witness :
    ([((1 : ℚ), (0 : ℚ), (0 : ℚ))] : List V3).length ≠ ([] : List V3).length ∧
    addParticles ⟨0, 512, fun _ => default⟩ [((1 : ℚ), (0 : ℚ), (0 : ℚ))] [] =
      ⟨0, 512, fun _ => default⟩ :=
  ⟨by decide, addParticles_mismatch _ _ _ (by decide)⟩

/-- C7: when the request exceeds the capacity, addParticles is not rejected:
the particle count becomes exactly the capacity, the kept records are the
prefix of the request of length capacity - count, and the existing records
stay untouched. -/
theorem addParticles_overflow (s : SysState) (positions velocities : List V3)
    (hlen : positions.length = velocities.length)
    (hcap : s.numParticles ≤ s.maxParticles)
    (hover : s.maxParticles < s.numParticles + positions.length) :
    (addParticles s positions velocities).numParticles = s.maxParticles ∧
    (∀ i, i < s.maxParticles - s.numParticles →
      (addParticles s positions velocities).buffer (s.numParticles + i) =
        mkParticle (positions.getD i 0) (velocities.getD i 0)) ∧
    (∀ j, j < s.numParticles →
      (addParticles s positions velocities).buffer j = s.buffer j) := by
  have hk : s.maxParticles - s.numParticles ≤ positions.length := by omega
  by_cases h0 : s.maxParticles - s.numParticles = 0
  · have hres : addParticles s positions velocities = s := by
      unfold addParticles
      rw [if_neg (by omega), if_pos hover, if_pos h0]
    rw [hres]
    exact ⟨by omega, fun i hi => absurd hi (by omega), fun j _ => rfl⟩
  · have hres : addParticles s positions velocities =
        { s with
          numParticles := s.numParticles + (s.maxParticles - s.numParticles)
          buffer := writeAt s.buffer s.numParticles
            (List.zipWith mkParticle (positions.take (s.maxParticles - s.numParticles))
              (velocities.take (s.maxParticles - s.numParticles))) } := by
      unfold addParticles
      rw [if_neg (by omega), if_pos hover, if_neg h0]
    rw [hres]
    refine ⟨by simp; omega, fun i hi => ?_, fun j hj => writeAt_below _ _ _ _ hj⟩
    have hrecs : (List.zipWith mkParticle
        (positions.take (s.maxParticles - s.numParticles))
        (velocities.take (s.maxParticles - s.numParticles))).length =
        s.maxParticles - s.numParticles := by
      simp [List.length_zipWith, List.length_take]
      omega
    have hilen : i < (List.zipWith mkParticle
        (positions.take (s.maxParticles - s.numParticles))
        (velocities.take (s.maxParticles - s.numParticles))).length := by omega
    dsimp only
    rw [writeAt_inside _ _ _ _ hilen]
    exact zipWith_take_getD mkParticle positions velocities _ i hk (by omega) hi

theorem addParticles_overflow_witness :
    ([((1 : ℚ), (0 : ℚ), (0 : ℚ)), ((2 : ℚ), (0 : ℚ), (0 : ℚ))] : List V3).length =
      ([((0 : ℚ), (0 : ℚ), (0 : ℚ)), ((0 : ℚ), (0 : ℚ), (0 : ℚ))] : List V3).length ∧
    (1 : ℕ) ≤ 2 ∧ (2 : ℕ) < 1 + 2 ∧
    ((addParticles ⟨1, 2, fun _ => default⟩
        [((1 : ℚ), (0 : ℚ), (0 : ℚ)), ((2 : ℚ), (0 : ℚ), (0 : ℚ))]
        [((0 : ℚ), (0 : ℚ), (0 : ℚ)), ((0 : ℚ), (0 : ℚ), (0 : ℚ))]).numParticles = 2 ∧
      (∀ i, i < 2 - 1 →
        (addParticles ⟨1, 2, fun _ => default⟩
          [((1 : ℚ), (0 : ℚ), (0 : ℚ)), ((2 : ℚ), (0 : ℚ), (0 : ℚ))]
          [((0 : ℚ), (0 : ℚ), (0 : ℚ)), ((0 : ℚ), (0 : ℚ), (0 : ℚ))]).buffer (1 + i) =
          mkParticle (([((1 : ℚ), (0 : ℚ), (0 : ℚ)), ((2 : ℚ), (0 : ℚ), (0 : ℚ))] : List V3).getD i 0)
            (([((0 : ℚ), (0 : ℚ), (0 : ℚ)), ((0 : ℚ), (0 : ℚ), (0 : ℚ))] : List V3).getD i 0)) ∧
      (∀ j, j < 1 →
        (addParticles ⟨1, 2, fun _ => default⟩
          [((1 : ℚ), (0 : ℚ), (0 : ℚ)), ((2 : ℚ), (0 : ℚ), (0 : ℚ))]
          [((0 : ℚ), (0 : ℚ), (0 : ℚ)), ((0 : ℚ), (0 : ℚ), (0 : ℚ))]).buffer j =
          (⟨1, 2, fun _ => default⟩ : SysState).buffer j)) :=
  ⟨rfl, by norm_num, by norm_num,
    addParticles_overflow ⟨1, 2, fun _ => default⟩ _ _ rfl (by norm_num) (by norm_num)⟩

/-- C5 counterexample: in the domain [0, 2], a particle whose integrated
position -1 exceeds the low wall is clamped to 0.5 = boxMin + SAFE_BOUNDS,
which is neither the domain minimum 0 nor the domain maximum 2. -/
theorem step1Wall_counterexample :
    step1Wall 0 2 1 (-1) = (1 * -wallDamping, (1 : ℚ) / 2) ∧
    ((1 : ℚ) / 2) ≠ 0 ∧ ((1 : ℚ) / 2) ≠ 2 := by
  refine ⟨?_, by norm_num, by norm_num⟩
  norm_num [step1Wall, boundaryAxis, safeBounds, wallDamping]

/-- C5 (amended): on each axis, a position beyond a wall gets the velocity
multiplied by the negated damping factor -0.5 and the position clamped
exactly to the wall inset by SAFE_BOUNDS = 0.5 from the grid box: boxMin +
0.5 on the low side and boxMax - 0.5 = origin + size - 0.5 on the high side;
positions between the walls stay untouched. -/
theorem step1Wall_clamps (origin size v p : ℚ) (hsize : 1 ≤ size) :
    (p < origin + safeBounds →
      step1Wall origin size v p = (v * -wallDamping, origin + safeBounds)) ∧
    (origin + size - safeBounds < p →
      step1Wall origin size v p = (v * -wallDamping, origin + size - safeBounds)) ∧
    (origin + safeBounds ≤ p → p ≤ origin + size - safeBounds →
      step1Wall origin size v p = (v, p)) := by
  have hwall : origin + safeBounds ≤ origin + size - safeBounds := by
    simp only [safeBounds]
    linarith
  refine ⟨fun h1 => ?_, fun h2 => ?_, fun h3 h4 => ?_⟩
  · unfold step1Wall boundaryAxis
    rw [if_pos h1]
    dsimp only
    rw [if_neg (not_lt.mpr hwall)]
  · unfold step1Wall boundaryAxis
    rw [if_neg (not_lt.mpr (le_of_lt (lt_of_le_of_lt hwall h2)))]
    dsimp only
    rw [if_pos h2]
  · unfold step1Wall boundaryAxis
    rw [if_neg (not_lt.mpr h3)]
    dsimp only
    rw [if_neg (not_lt.mpr h4)]

theorem step1Wall_clamps_witness :
    (1 : ℚ) ≤ 2 ∧ (-1 : ℚ) < 0 + safeBounds ∧
    step1Wall 0 2 1 (-1) = (1 * -wallDamping, 0 + safeBounds) :=
  ⟨by norm_num, by norm_num [safeBounds],
    (step1Wall_clamps 0 2 1 (-1) (by norm_num)).1 (by norm_num [safeBounds])⟩

/-- C6 counterexample: a particle exactly at the request center (distance 0,
well within radius 1) receives no impulse at all, not the full-strength
impulse: the source skips any particle closer than 0.001 to the center. -/
theorem impulseDelta_center_counterexample :
    impulseDelta ((1 : ℚ), (0 : ℚ), (0 : ℚ)) 1 0 1 = (0, 0, 0) ∧
    vscale ((1 - 0 / 1) ^ 2 * 1) ((1 : ℚ), (0 : ℚ), (0 : ℚ)) = (1, 0, 0) ∧
    ((0 : ℚ), (0 : ℚ), (0 : ℚ)) ≠ ((1 : ℚ), (0 : ℚ), (0 : ℚ)) := by
  refine ⟨?_, by norm_num [vscale], by decide⟩
  norm_num [impulseDelta]

/-- C6 (amended): a particle at distance d from the request center with
0.001 < d ≤ radius receives the impulse scaled by the quadratic falloff
(1 - d / radius) ^ 2 and by the timestep; a particle at distance at most
0.001 from the center or beyond the radius receives nothing; at exactly the
radius the contribution is zero. -/
theorem impulseDelta_falloff (impulse : V3) (radius dist dt : ℚ) :
    (1 / 1000 < dist → dist ≤ radius →
      impulseDelta impulse radius dist dt = vscale ((1 - dist / radius) ^ 2 * dt) impulse) ∧
    (dist ≤ 1 / 1000 ∨ radius < dist → impulseDelta impulse radius dist dt = (0, 0, 0)) ∧
    impulseDelta impulse radius radius dt = (0, 0, 0) := by
  refine ⟨fun h1 h2 => ?_, fun h => ?_, ?_⟩
  · rw [impulseDelta, if_pos ⟨h2, h1⟩]
  · rcases h with h | h
    · by_cases hr : dist ≤ radius
      · rw [impulseDelta, if_neg (by push_neg; intro; linarith)]
      · rw [impulseDelta, if_neg (by push_neg; intro h2; exact absurd h2 hr)]
    · rw [impulseDelta, if_neg (by push_neg; intro h2; linarith)]
  · by_cases hr : 1 / 1000 < radius
    · rw [impulseDelta, if_pos ⟨le_refl radius, hr⟩]
      have hr0 : radius ≠ 0 := by intro h; rw [h] at hr; norm_num at hr
      rw [div_self hr0]
      norm_num [vscale]
    · rw [impulseDelta, if_neg (by push_neg; intro; linarith)]

theorem impulseDelta_falloff_witness :
    (1 : ℚ) / 1000 < 1 / 2 ∧ (1 : ℚ) / 2 ≤ 1 ∧
    impulseDelta ((1 : ℚ), (0 : ℚ), (0 : ℚ)) 1 (1 / 2) 1 =
      vscale ((1 - (1 / 2) / 1) ^ 2 * 1) ((1 : ℚ), (0 : ℚ), (0 : ℚ)) :=
  ⟨by norm_num, by norm_num,
    (impulseDelta_falloff ((1 : ℚ), (0 : ℚ), (0 : ℚ)) 1 (1 / 2) 1).1
      (by norm_num) (by norm_num)⟩

/-- C8: a particle with no stencil candidate inside the kernel radius other
than itself accumulates exactly its own zero-distance contribution
mass * Poly6(kernelRadius, 0), and its pressure is exactly
stiffness * (density - restDensity) with no lower clamp: for such an
isolated particle the pressure is in fact negative. -/
theorem isolated_density_pressure (pos : V3) (others : List V3)
    (hfar : ∀ q ∈ others, kernelRadius ^ 2 ≤ normSq (pos - q)) :
    densityAt pos (pos :: others) = sphMass * poly6Weight 0 ∧
    pressureOf (densityAt pos (pos :: others)) =
      stiffnessK * (densityAt pos (pos :: others) - restDensity) ∧
    pressureOf (densityAt pos (pos :: others)) < 0 := by
  have hself : normSq (pos - pos) = 0 := by
    rw [sub_self]
    norm_num [normSq]
  have hdens : densityAt pos (pos :: others) = sphMass * poly6Weight 0 := by
    unfold densityAt
    rw [List.map_cons, List.sum_cons]
    have htail : ((others.map fun q =>
        if kernelRadius ^ 2 ≤ normSq (pos - q) then 0
        else sphMass * poly6Weight (normSq (pos - q)))).sum = 0 := by
      apply List.sum_eq_zero
      intro x hx
      obtain ⟨q, hq, hxq⟩ := List.mem_map.mp hx
      rw [← hxq, if_pos (hfar q hq)]
    rw [htail, hself, if_neg (by norm_num [kernelRadius])]
    ring
  refine ⟨hdens, by rw [pressureOf, restPressure, zero_add], ?_⟩
  rw [hdens]
  norm_num [pressureOf, restPressure, stiffnessK, restDensity, sphMass,
    poly6Weight, poly6Const, piApprox, kernelRadius]

theorem isolated_density_pressure_witness :
    (∀ q ∈ ([((1 : ℚ), (0 : ℚ), (0 : ℚ))] : List V3),
      kernelRadius ^ 2 ≤ normSq (((0 : ℚ), (0 : ℚ), (0 : ℚ)) - q)) ∧
    (densityAt ((0 : ℚ), (0 : ℚ), (0 : ℚ))
        (((0 : ℚ), (0 : ℚ), (0 : ℚ)) :: [((1 : ℚ), (0 : ℚ), (0 : ℚ))]) =
      sphMass * poly6Weight 0 ∧
    pressureOf (densityAt ((0 : ℚ), (0 : ℚ), (0 : ℚ))
        (((0 : ℚ), (0 : ℚ), (0 : ℚ)) :: [((1 : ℚ), (0 : ℚ), (0 : ℚ))])) =
      stiffnessK * (densityAt ((0 : ℚ), (0 : ℚ), (0 : ℚ))
        (((0 : ℚ), (0 : ℚ), (0 : ℚ)) :: [((1 : ℚ), (0 : ℚ), (0 : ℚ))]) - restDensity) ∧
    pressureOf (densityAt ((0 : ℚ), (0 : ℚ), (0 : ℚ))
        (((0 : ℚ), (0 : ℚ), (0 : ℚ)) :: [((1 : ℚ), (0 : ℚ), (0 : ℚ))])) < 0) := by
  have hfar : ∀ q ∈ ([((1 : ℚ), (0 : ℚ), (0 : ℚ))] : List V3),
      kernelRadius ^ 2 ≤ normSq (((0 : ℚ), (0 : ℚ), (0 : ℚ)) - q) := by
    intro q hq
    rw [List.mem_singleton] at hq
    subst hq
    norm_num [normSq, kernelRadius]
  exact ⟨hfar, isolated_density_pressure _ _ hfar⟩

/-- C9: in the force pass, a neighbor that is the particle itself, or whose
distance is at most the minimum-distance epsilon 0.0001, contributes zero
pressure force and zero viscosity force; hence two coincident particles
exert zero mutual force; and the branch dividing by the distance runs only
when the distance is strictly positive. -/
theorem forceContrib_guard (i j : ℕ) (p q : SPHParticle) (dist : ℚ)
    (_hnn : 0 ≤ dist) (hsq : dist ^ 2 = normSq (p.position - q.position)) :
    (i = j ∨ dist ≤ 1 / 10000 → forceContrib i j p q dist = ((0, 0, 0), (0, 0, 0))) ∧
    (p.position = q.position →
      forceContrib i j p q dist = ((0, 0, 0), (0, 0, 0)) ∧
      forceContrib j i q p dist = ((0, 0, 0), (0, 0, 0))) ∧
    (i ≠ j → ¬(kernelRadius ≤ dist ∨ dist ≤ 1 / 10000) → 0 < dist) := by
  have hskip : ∀ (a b : ℕ) (x y : SPHParticle), dist ≤ 1 / 10000 →
      forceContrib a b x y dist = ((0, 0, 0), (0, 0, 0)) := by
    intro a b x y hd
    by_cases hab : a = b
    · rw [forceContrib, if_pos hab]
    · rw [forceContrib, if_neg hab, if_pos (Or.inr hd)]
  refine ⟨fun h => ?_, fun hpq => ?_, fun _ hg => ?_⟩
  · rcases h with h | h
    · rw [forceContrib, if_pos h]
    · exact hskip i j p q h
  · have h0 : dist = 0 := by
      have : normSq (p.position - q.position) = 0 := by
        rw [hpq, sub_self]
        norm_num [normSq]
      have h2 : dist ^ 2 = 0 := by rw [hsq, this]
      exact pow_eq_zero_iff two_ne_zero |>.mp h2
    exact ⟨hskip i j p q (by rw [h0]; norm_num), hskip j i q p (by rw [h0]; norm_num)⟩
  · push_neg at hg
    linarith [hg.2]

theorem forceContrib_guard_witness :
    (0 : ℚ) ≤ 0 ∧
    (0 : ℚ) ^ 2 = normSq ((mkParticle ((0 : ℚ), (0 : ℚ), (0 : ℚ)) ((0 : ℚ), (0 : ℚ), (0 : ℚ))).position -
      (mkParticle ((0 : ℚ), (0 : ℚ), (0 : ℚ)) ((0 : ℚ), (0 : ℚ), (0 : ℚ))).position) ∧
    ((mkParticle ((0 : ℚ), (0 : ℚ), (0 : ℚ)) ((0 : ℚ), (0 : ℚ), (0 : ℚ))).position =
        (mkParticle ((0 : ℚ), (0 : ℚ), (0 : ℚ)) ((0 : ℚ), (0 : ℚ), (0 : ℚ))).position →
      forceContrib 0 1 (mkParticle ((0 : ℚ), (0 : ℚ), (0 : ℚ)) ((0 : ℚ), (0 : ℚ), (0 : ℚ)))
        (mkParticle ((0 : ℚ), (0 : ℚ), (0 : ℚ)) ((0 : ℚ), (0 : ℚ), (0 : ℚ))) 0 =
        ((0, 0, 0), (0, 0, 0)) ∧
      forceContrib 1 0 (mkParticle ((0 : ℚ), (0 : ℚ), (0 : ℚ)) ((0 : ℚ), (0 : ℚ), (0 : ℚ)))
        (mkParticle ((0 : ℚ), (0 : ℚ), (0 : ℚ)) ((0 : ℚ), (0 : ℚ), (0 : ℚ))) 0 =
        ((0, 0, 0), (0, 0, 0))) :=
  ⟨le_refl 0, by norm_num [mkParticle, normSq],
    (forceContrib_guard 0 1 (mkParticle ((0 : ℚ), (0 : ℚ), (0 : ℚ)) ((0 : ℚ), (0 : ℚ), (0 : ℚ)))
      (mkParticle ((0 : ℚ), (0 : ℚ), (0 : ℚ)) ((0 : ℚ), (0 : ℚ), (0 : ℚ))) 0 (le_refl 0)
      (by norm_num [mkParticle, normSq])).2.1⟩

/-! The fixed-substep clock. -/

theorem simLoop_go : ∀ (k : ℕ) (a : ℚ), 0 ≤ a → (⌊a / simDT⌋).toNat = k →
    simLoop a = (a - simDT * ⌊a / simDT⌋, (⌊a / simDT⌋).toNat) := by
  have hd : (0 : ℚ) < simDT := by norm_num [simDT]
  intro k
  induction k with
  | zero =>
    intro a ha hk
    have hnn : 0 ≤ ⌊a / simDT⌋ := Int.floor_nonneg.mpr (by positivity)
    have h0 : ⌊a / simDT⌋ = 0 := by omega
    have hlt : a < simDT := by
      have h1 := Int.lt_floor_add_one (a / simDT)
      rw [h0] at h1
      have h2 : a / simDT < 1 := by push_cast at h1; linarith
      have := (div_lt_one hd).mp h2
      linarith
    rw [simLoop, dif_neg (not_le.mpr hlt), h0]
    norm_num
  | succ n ih =>
    intro a ha hk
    have hnn : 0 ≤ ⌊a / simDT⌋ := Int.floor_nonneg.mpr (by positivity)
    have h1 : 1 ≤ ⌊a / simDT⌋ := by omega
    have hge : simDT ≤ a := by
      have h2 : ((1 : ℤ) : ℚ) ≤ a / simDT := Int.le_floor.mp h1
      have h3 : (1 : ℚ) ≤ a / simDT := by push_cast at h2; linarith
      exact (one_le_div hd).mp h3
    have hfloor : ⌊(a - simDT) / simDT⌋ = ⌊a / simDT⌋ - 1 := by
      rw [sub_div, div_self (ne_of_gt hd), Int.floor_sub_one]
    have ihres := ih (a - simDT) (by linarith) (by omega)
    rw [simLoop, dif_pos hge, ihres, hfloor]
    dsimp only
    rw [Prod.mk.injEq]
    constructor
    · push_cast
      ring
    · omega

theorem simLoop_closed (a : ℚ) (ha : 0 ≤ a) :
    simLoop a = (a - simDT * ⌊a / simDT⌋, (⌊a / simDT⌋).toNat) :=
  simLoop_go _ a ha rfl

/-- C4 counterexample: with zero particles, update(deltaTime) returns at
once without touching the accumulator, so for deltaTime equal to one fixed
step the claimed substep count floor((0 + dt) / DT) = 1 is not run: zero
substeps run. -/
theorem sphUpdate_zero_particles_counterexample :
    sphUpdate 0 0 (3 / 2500) = (0, 0) ∧
    (⌊((0 : ℚ) + 3 / 2500) / simDT⌋).toNat = 1 ∧ (0 : ℕ) ≠ 1 := by
  refine ⟨by rw [sphUpdate, if_pos rfl], ?_, by norm_num⟩
  norm_num [simDT]

/-- C4 (amended): provided at least one particle exists, update(deltaTime)
with a nonnegative delta and a nonnegative accumulator adds the delta to the
accumulator and runs exactly floor((acc + dt) / DT) substeps with no cap,
leaving the accumulator equal to the remainder: nonnegative and strictly
below the fixed step.  With zero particles the call returns unchanged. -/
theorem sphUpdate_substeps (n : ℕ) (acc dt : ℚ) (hn : n ≠ 0)
    (hacc : 0 ≤ acc) (hdt : 0 ≤ dt) :
    sphUpdate n acc dt =
      (acc + dt - simDT * ⌊(acc + dt) / simDT⌋, (⌊(acc + dt) / simDT⌋).toNat) ∧
    0 ≤ acc + dt - simDT * ⌊(acc + dt) / simDT⌋ ∧
    acc + dt - simDT * ⌊(acc + dt) / simDT⌋ < simDT := by
  have hd : (0 : ℚ) < simDT := by norm_num [simDT]
  have hs : 0 ≤ acc + dt := by linarith
  refine ⟨?_, ?_, ?_⟩
  · rw [sphUpdate, if_neg hn]
    exact simLoop_closed _ hs
  · have h1 : ((⌊(acc + dt) / simDT⌋ : ℤ) : ℚ) ≤ (acc + dt) / simDT := Int.floor_le _
    have h2 : ((⌊(acc + dt) / simDT⌋ : ℤ) : ℚ) * simDT ≤ acc + dt := by
      rw [← le_div_iff₀ hd]
      exact h1
    linarith
  · have h1 : (acc + dt) / simDT < ⌊(acc + dt) / simDT⌋ + 1 := Int.lt_floor_add_one _
    have h2 : acc + dt < (((⌊(acc + dt) / simDT⌋ : ℤ) : ℚ) + 1) * simDT := by
      rw [← div_lt_iff₀ hd]
      exact h1
    linarith

theorem sphUpdate_substeps_witness :
    (1 : ℕ) ≠ 0 ∧ (0 : ℚ) ≤ 0 ∧ (0 : ℚ) ≤ 7 / 2500 ∧
    (sphUpdate 1 0 (7 / 2500) =
      (0 + 7 / 2500 - simDT * ⌊((0 : ℚ) + 7 / 2500) / simDT⌋,
        (⌊((0 : ℚ) + 7 / 2500) / simDT⌋).toNat) ∧
    0 ≤ 0 + 7 / 2500 - simDT * ⌊((0 : ℚ) + 7 / 2500) / simDT⌋ ∧
    0 + 7 / 2500 - simDT * ⌊((0 : ℚ) + 7 / 2500) / simDT⌋ < simDT) :=
  ⟨one_ne_zero, le_refl 0, by norm_num,
    sphUpdate_substeps 1 0 (7 / 2500) one_ne_zero (le_refl 0) (by norm_num)⟩

/-! Counting-sort partition lemmas for passes 2 and 3. -/

theorem pass2go_not_mem {ι : Type} [DecidableEq ι] (g : ι → ℕ) (l : List ι)
    (out : ι → ℕ) (acc : ℕ) (c : ι) (hc : c ∉ l) :
    pass2go g l out acc c = out c := by
  induction l generalizing out acc with
  | nil => rfl
  | cons d rest ih =>
    have hcd : c ≠ d := fun h => hc (h ▸ List.mem_cons_self d rest)
    have hcr : c ∉ rest := fun h => hc (List.mem_cons_of_mem d h)
    rw [pass2go, ih _ _ hcr, Function.update_noteq hcd]

theorem pass2go_mem {ι : Type} [DecidableEq ι] (g : ι → ℕ) :
    ∀ (l : List ι), l.Nodup → ∀ (out : ι → ℕ) (acc : ℕ) (c : ι), c ∈ l →
      pass2go g l out acc c = ((acc + offAssign g l c) * 256) % 2 ^ 32 := by
  intro l
  induction l with
  | nil => intro _ out acc c hc; cases hc
  | cons d rest ih =>
    intro hnd out acc c hc
    obtain ⟨hdr, hndr⟩ := List.nodup_cons.mp hnd
    by_cases hcd : c = d
    · subst hcd
      rw [pass2go, pass2go_not_mem g rest _ _ c hdr, Function.update_same,
        offAssign, if_pos rfl, Nat.add_zero]
    · have hcr : c ∈ rest := (List.mem_cons.mp hc).resolve_left hcd
      rw [pass2go, ih hndr _ _ c hcr, offAssign, if_neg hcd, Nat.add_assoc]

theorem pass3_word {ι : Type} [DecidableEq ι] :
    ∀ (l : List ι) (g : ι → ℕ) (c : ι), g c < 2 ^ 32 →
      pass3 l g c = (g c + l.count c) % 2 ^ 32 := by
  intro l
  induction l with
  | nil =>
    intro g c hg
    rw [pass3, List.count_nil, Nat.add_zero, Nat.mod_eq_of_lt hg]
  | cons p rest ih =>
    intro g c hg
    by_cases hpc : p = c
    · subst hpc
      rw [pass3, ih _ p (by rw [Function.update_same]; exact Nat.mod_lt _ (by norm_num)),
        Function.update_same, Nat.mod_add_mod, List.count_cons_self]
      have harith : g p + 1 + rest.count p = g p + (rest.count p + 1) := by omega
      rw [harith]
    · rw [pass3, ih _ c (by rw [Function.update_noteq (Ne.symm hpc)]; exact hg),
        Function.update_noteq (Ne.symm hpc), List.count_cons_of_ne (Ne.symm hpc)]

theorem offAssign_add_le {ι : Type} [DecidableEq ι] (g : ι → ℕ) :
    ∀ (l : List ι) (c : ι), c ∈ l → offAssign g l c + g c ≤ (l.map g).sum := by
  intro l
  induction l with
  | nil => intro c hc; cases hc
  | cons d rest ih =>
    intro c hc
    rw [offAssign, List.map_cons, List.sum_cons]
    by_cases hcd : c = d
    · subst hcd
      rw [if_pos rfl]
      omega
    · rw [if_neg hcd]
      have := ih c ((List.mem_cons.mp hc).resolve_left hcd)
      omega

theorem offAssign_separated {ι : Type} [DecidableEq ι] (g : ι → ℕ) :
    ∀ (l : List ι) (c d : ι), c ∈ l → d ∈ l → c ≠ d →
      offAssign g l c + g c ≤ offAssign g l d ∨
      offAssign g l d + g d ≤ offAssign g l c := by
  intro l
  induction l with
  | nil => intro c _ hc _ _; cases hc
  | cons e rest ih =>
    intro c d hc hd hcd
    by_cases hce : c = e
    · subst hce
      have hde : d ≠ c := Ne.symm hcd
      rw [offAssign, offAssign, if_pos rfl, if_neg hde]
      left
      omega
    · by_cases hde : d = e
      · subst hde
        rw [offAssign, offAssign, if_pos rfl, if_neg hce]
        right
        omega
      · have hcr : c ∈ rest := (List.mem_cons.mp hc).resolve_left hce
        have hdr : d ∈ rest := (List.mem_cons.mp hd).resolve_left hde
        rw [offAssign, offAssign, if_neg hce, if_neg hde]
        rcases ih c d hcr hdr hcd with h | h
        · left; omega
        · right; omega

theorem offAssign_cover {ι : Type} [DecidableEq ι] (g : ι → ℕ) :
    ∀ (l : List ι), l.Nodup → ∀ t, t < (l.map g).sum →
      ∃ c, c ∈ l ∧ offAssign g l c ≤ t ∧ t < offAssign g l c + g c := by
  intro l
  induction l with
  | nil => intro _ t ht; simp at ht
  | cons e rest ih =>
    intro hnd t ht
    obtain ⟨her, hndr⟩ := List.nodup_cons.mp hnd
    rw [List.map_cons, List.sum_cons] at ht
    by_cases hte : t < g e
    · refine ⟨e, List.mem_cons_self e rest, ?_, ?_⟩
      · rw [offAssign, if_pos rfl]
        exact Nat.zero_le t
      · rw [offAssign, if_pos rfl]
        omega
    · obtain ⟨c, hcr, h1, h2⟩ := ih hndr (t - g e) (by omega)
      have hce : c ≠ e := fun h => her (h ▸ hcr)
      refine ⟨c, List.mem_cons_of_mem e hcr, ?_, ?_⟩
      · rw [offAssign, if_neg hce]
        omega
      · rw [offAssign, if_neg hce]
        omega

theorem sum_map_add {ι : Type} (f g : ι → ℕ) :
    ∀ (l : List ι), (l.map fun c => f c + g c).sum = (l.map f).sum + (l.map g).sum := by
  intro l
  induction l with
  | nil => simp
  | cons d rest ih =>
    simp only [List.map_cons, List.sum_cons, ih]
    omega

theorem sum_indicator_not_mem {ι : Type} [DecidableEq ι] (p : ι) :
    ∀ (l : List ι), p ∉ l → (l.map fun c => if c = p then 1 else 0).sum = 0 := by
  intro l
  induction l with
  | nil => intro _; rfl
  | cons e rest ih =>
    intro hp
    have hep : e ≠ p := fun h => hp (h ▸ List.mem_cons_self e rest)
    rw [List.map_cons, List.sum_cons, if_neg hep, ih fun h => hp (List.mem_cons_of_mem e h)]

theorem sum_indicator_mem {ι : Type} [DecidableEq ι] (p : ι) :
    ∀ (l : List ι), l.Nodup → p ∈ l → (l.map fun c => if c = p then 1 else 0).sum = 1 := by
  intro l
  induction l with
  | nil => intro _ hp; cases hp
  | cons e rest ih =>
    intro hnd hp
    obtain ⟨her, hndr⟩ := List.nodup_cons.mp hnd
    rw [List.map_cons, List.sum_cons]
    by_cases hep : e = p
    · subst hep
      rw [if_pos rfl, sum_indicator_not_mem e rest her]
    · rw [if_neg hep, ih hndr ((List.mem_cons.mp hp).resolve_left fun h => hep h.symm)]

theorem sum_counts {ι : Type} [DecidableEq ι] :
    ∀ (ps order : List ι), order.Nodup → (∀ q ∈ ps, q ∈ order) →
      (order.map fun c => ps.count c).sum = ps.length := by
  intro ps
  induction ps with
  | nil =>
    intro order _ _
    rw [List.length_nil]
    apply List.sum_eq_zero
    intro x hx
    obtain ⟨c, _, hxc⟩ := List.mem_map.mp hx
    rw [← hxc, List.count_nil]
  | cons p rest ih =>
    intro order hnd hmem
    have hcnt : ∀ c, (p :: rest).count c = rest.count c + (if c = p then 1 else 0) := by
      intro c
      by_cases hcp : c = p
      · subst hcp
        rw [List.count_cons_self, if_pos rfl]
      · rw [List.count_cons_of_ne hcp, if_neg hcp, Nat.add_zero]
    calc (order.map fun c => (p :: rest).count c).sum
        = (order.map fun c => rest.count c + (if c = p then 1 else 0)).sum := by
          apply congrArg
          exact List.map_congr_left fun c _ => hcnt c
      _ = (order.map fun c => rest.count c).sum +
            (order.map fun c => if c = p then 1 else 0).sum :=
          sum_map_add _ _ order
      _ = rest.length + 1 := by
          rw [ih order hnd fun q hq => hmem q (List.mem_cons_of_mem p hq),
            sum_indicator_mem p order hnd (hmem p (List.mem_cons_self p rest))]
      _ = (p :: rest).length := by rw [List.length_cons]

/-- Decoded value of a cell word after the full pass 1, 2, 3 sequence. -/
theorem gridAfterPass3_word {ι : Type} [DecidableEq ι] (ps order scatter : List ι)
    (hnd : order.Nodup) (hmem : ∀ p ∈ ps, p ∈ order) (hperm : scatter.Perm ps)
    (hcap : ∀ c, ps.count c ≤ 255) (htot : ps.length < 2 ^ 24)
    (c : ι) (hc : c ∈ order) :
    gridAfterPass3 ps order scatter c =
      offAssign (countGrid ps) order c * 256 + ps.count c ∧
    offsetOf (gridAfterPass3 ps order scatter c) = offAssign (countGrid ps) order c ∧
    countOf (gridAfterPass3 ps order scatter c) = ps.count c := by
  have hsum : ((order.map (countGrid ps)).sum) = ps.length :=
    sum_counts ps order hnd hmem
  have hoffle : offAssign (countGrid ps) order c + ps.count c ≤ ps.length := by
    have := offAssign_add_le (countGrid ps) order c hc
    rw [hsum] at this
    exact this
  have hp2 : pass2 (countGrid ps) order c =
      (offAssign (countGrid ps) order c * 256) % 2 ^ 32 := by
    rw [pass2, pass2go_mem (countGrid ps) order hnd _ 0 c hc, Nat.zero_add]
  have hp2lt : pass2 (countGrid ps) order c < 2 ^ 32 := by
    rw [hp2]
    exact Nat.mod_lt _ (by norm_num)
  have hword : gridAfterPass3 ps order scatter c =
      offAssign (countGrid ps) order c * 256 + ps.count c := by
    rw [gridAfterPass3, pass3_word scatter _ c hp2lt, hp2, Nat.mod_add_mod,
      hperm.count_eq c]
    have hcnt := hcap c
    exact Nat.mod_eq_of_lt (by omega)
  refine ⟨hword, ?_, ?_⟩
  · rw [offsetOf, hword]
    have hcnt := hcap c
    omega
  · rw [countOf, hword]
    have hcnt := hcap c
    omega

/-- C2 counterexample: with a single cell holding 3 particles, the word the
cell carries after pass 2 has count field 0, not the pass-1 count 3: pass 2
stores `offset << 8`, clearing the count field. -/
theorem pass2_count_counterexample :
    countOf (pass2 (fun _ : Fin 1 => 3) [(0 : Fin 1)] 0) = 0 ∧
    (fun _ : Fin 1 => (3 : ℕ)) 0 = 3 ∧ (0 : ℕ) ≠ 3 := by
  refine ⟨?_, rfl, by norm_num⟩
  decide

/-- C2 (amended): pass 2 writes each cell word as the pair (offset, 0): the
offset field holds the base index the cell reserved (the sum of the pass-1
counts of the cells served before it), and the count field is cleared to
zero so that pass 3 can reuse it as the next-free-slot counter. -/
theorem pass2_stores_offset (ι : Type) [DecidableEq ι] (g : ι → ℕ) (order : List ι)
    (c : ι) (hc : c ∈ order) (hnd : order.Nodup)
    (hsum : (order.map g).sum < 2 ^ 24) :
    offsetOf (pass2 g order c) = offAssign g order c ∧
    countOf (pass2 g order c) = 0 := by
  have hoffle : offAssign g order c + g c ≤ (order.map g).sum :=
    offAssign_add_le g order c hc
  have hp2 : pass2 g order c = (offAssign g order c * 256) % 2 ^ 32 := by
    rw [pass2, pass2go_mem g order hnd _ 0 c hc, Nat.zero_add]
  have hlt : offAssign g order c * 256 < 2 ^ 32 := by omega
  rw [hp2, Nat.mod_eq_of_lt hlt, offsetOf, countOf]
  omega

theorem pass2_stores_offset_witness :
    ((1 : Fin 2) ∈ ([0, 1] : List (Fin 2))) ∧
    ([0, 1] : List (Fin 2)).Nodup ∧
    (([0, 1] : List (Fin 2)).map fun c => if c = 0 then 3 else 5).sum < 2 ^ 24 ∧
    (offsetOf (pass2 (fun c : Fin 2 => if c = 0 then 3 else 5) [0, 1] 1) =
        offAssign (fun c : Fin 2 => if c = 0 then 3 else 5) [0, 1] 1 ∧
      countOf (pass2 (fun c : Fin 2 => if c = 0 then 3 else 5) [0, 1] 1) = 0) :=
  ⟨by decide, by decide, by decide,
    pass2_stores_offset (Fin 2) _ [0, 1] 1 (by decide) (by decide) (by decide)⟩

/-- C1: after pass 3 the decoded cell words form an exact counting-sort
partition of the particle index space: every cell range ends within the
total particle count, two different cells have disjoint half-open ranges
[offset, offset + count), and every particle index below the total lies in
the range of some cell — no gaps and no overlap. -/
theorem pass3_partition {ι : Type} [DecidableEq ι] (ps order scatter : List ι)
    (hnd : order.Nodup) (hmem : ∀ p ∈ ps, p ∈ order) (hperm : scatter.Perm ps)
    (hcap : ∀ c, ps.count c ≤ 255) (htot : ps.length < 2 ^ 24) :
    (∀ c ∈ order,
      offsetOf (gridAfterPass3 ps order scatter c) +
        countOf (gridAfterPass3 ps order scatter c) ≤ ps.length) ∧
    (∀ c ∈ order, ∀ d ∈ order, c ≠ d → ∀ t,
      offsetOf (gridAfterPass3 ps order scatter c) ≤ t ∧
        t < offsetOf (gridAfterPass3 ps order scatter c) +
          countOf (gridAfterPass3 ps order scatter c) →
      ¬(offsetOf (gridAfterPass3 ps order scatter d) ≤ t ∧
        t < offsetOf (gridAfterPass3 ps order scatter d) +
          countOf (gridAfterPass3 ps order scatter d))) ∧
    (∀ t, t < ps.length → ∃ c, c ∈ order ∧
      offsetOf (gridAfterPass3 ps order scatter c) ≤ t ∧
      t < offsetOf (gridAfterPass3 ps order scatter c) +
        countOf (gridAfterPass3 ps order scatter c)) := by
  have hsum : ((order.map (countGrid ps)).sum) = ps.length :=
    sum_counts ps order hnd hmem
  have hdec := fun c hc => gridAfterPass3_word ps order scatter hnd hmem hperm hcap htot c hc
  refine ⟨fun c hc => ?_, fun c hc d hd hcd t hct => ?_, fun t ht => ?_⟩
  · obtain ⟨_, ho, hk⟩ := hdec c hc
    rw [ho, hk]
    have := offAssign_add_le (countGrid ps) order c hc
    rw [hsum] at this
    exact this
  · obtain ⟨_, hoc, hkc⟩ := hdec c hc
    obtain ⟨_, hod, hkd⟩ := hdec d hd
    rw [hoc, hkc] at hct
    rw [hod, hkd]
    intro hdt
    rcases offAssign_separated (countGrid ps) order c d hc hd hcd with h | h
    · rw [countGrid] at h
      omega
    · rw [countGrid] at h
      omega
  · obtain ⟨c, hc, h1, h2⟩ := offAssign_cover (countGrid ps) order hnd t (by rw [hsum]; exact ht)
    obtain ⟨_, hoc, hkc⟩ := hdec c hc
    rw [countGrid] at h2
    exact ⟨c, hc, by rw [hoc]; exact h1, by rw [hoc, hkc]; exact h2⟩

theorem pass3_partition_witness :
    ([0, 1] : List (Fin 2)).Nodup ∧
    (∀ p ∈ ([0, 1, 1] : List (Fin 2)), p ∈ ([0, 1] : List (Fin 2))) ∧
    ([1, 0, 1] : List (Fin 2)).Perm ([0, 1, 1] : List (Fin 2)) ∧
    (∀ c : Fin 2, ([0, 1, 1] : List (Fin 2)).count c ≤ 255) ∧
    ([0, 1, 1] : List (Fin 2)).length < 2 ^ 24 ∧
    ((∀ c ∈ ([0, 1] : List (Fin 2)),
      offsetOf (gridAfterPass3 [0, 1, 1] [0, 1] [1, 0, 1] c) +
        countOf (gridAfterPass3 [0, 1, 1] [0, 1] [1, 0, 1] c) ≤
        ([0, 1, 1] : List (Fin 2)).length) ∧
    (∀ c ∈ ([0, 1] : List (Fin 2)), ∀ d ∈ ([0, 1] : List (Fin 2)), c ≠ d → ∀ t,
      offsetOf (gridAfterPass3 [0, 1, 1] [0, 1] [1, 0, 1] c) ≤ t ∧
        t < offsetOf (gridAfterPass3 [0, 1, 1] [0, 1] [1, 0, 1] c) +
          countOf (gridAfterPass3 [0, 1, 1] [0, 1] [1, 0, 1] c) →
      ¬(offsetOf (gridAfterPass3 [0, 1, 1] [0, 1] [1, 0, 1] d) ≤ t ∧
        t < offsetOf (gridAfterPass3 [0, 1, 1] [0, 1] [1, 0, 1] d) +
          countOf (gridAfterPass3 [0, 1, 1] [0, 1] [1, 0, 1] d))) ∧
    (∀ t, t < ([0, 1, 1] : List (Fin 2)).length → ∃ c, c ∈ ([0, 1] : List (Fin 2)) ∧
      offsetOf (gridAfterPass3 [0, 1, 1] [0, 1] [1, 0, 1] c) ≤ t ∧
      t < offsetOf (gridAfterPass3 [0, 1, 1] [0, 1] [1, 0, 1] c) +
        countOf (gridAfterPass3 [0, 1, 1] [0, 1] [1, 0, 1] c))) :=
  ⟨by decide, by decide, by decide, by decide, by decide,
    pass3_partition [0, 1, 1] [0, 1] [1, 0, 1]
      (by decide) (by decide) (by decide) (by decide) (by decide)⟩

end WaterSim
